import Mathlib

/-!
Shallow embedding of the report aggregation and ranking engine of the
gov-web-performance repository.

The embedding covers:
* the data model (`scripts/audit.js` / `src/types`): site reports, monthly
  summaries, manifest entries, audit issues, timing metrics;
* the Metric Extractor (`extractMetrics` / `extractAuditsForCategory`);
* the Report Merger (`saveReport`), modelled as a pure function from the
  previously persisted summary and the batch of new reports to the updated
  summary document;
* the Manifest Indexer (`updateManifest`);
* the Ranking Engine (`calculateRankings` in `src/utils/dataLoader.ts`);
* the Historical Series Builder (`getCountryHistoricalData`).

JavaScript `Array.prototype.sort` with a comparator is a stable sort
(guaranteed since ES2019); it is modelled by `List.insertionSort r` where
`r a b` means "the comparator does not require `b` to come before `a`",
which for the comparators in this code base is a total preorder.
Numbers are modelled by `Int` (the 0-100 integer scores) and `ℚ`
(fractional Lighthouse scores and numeric audit values).
-/

namespace GovWeb

/-- The four category scores of a site report (0-100 integers in practice;
the type records them as integers as produced by `Math.round(x * 100)`). -/
structure LighthouseMetrics where
  performance : Int
  accessibility : Int
  bestPractices : Int
  seo : Int
deriving Repr, DecidableEq

/-- Summary-form site report: one site, one audit run, scores only
(`CountryReport` with summary metrics in `src/types`). -/
structure CountryReport where
  country : String
  tld : String
  url : String
  timestamp : String
  metrics : LighthouseMetrics
deriving Repr, DecidableEq

/-- A monthly summary document: month key, generation timestamp and the
collection of summary-form site reports. -/
structure MonthlyReport where
  month : String
  generatedAt : String
  reports : List CountryReport
deriving Repr, DecidableEq

/-- Selector for one of the four category scores. -/
inductive Metric where
  | performance
  | accessibility
  | bestPractices
  | seo
deriving Repr, DecidableEq

/-- Read the selected category score (`report.metrics[metric]`). -/
def LighthouseMetrics.get (m : LighthouseMetrics) : Metric → Int
  | .performance => m.performance
  | .accessibility => m.accessibility
  | .bestPractices => m.bestPractices
  | .seo => m.seo

/-- One entry of the ranking list produced by `calculateRankings`. -/
structure CountryRanking where
  country : String
  tld : String
  rank : Nat
  score : Int
  previousRank : Option Nat
  change : Option Int
deriving Repr, DecidableEq

/-- The result of `calculateRankings`: the metric echoed back plus the
ordered ranking list. -/
structure MetricRankings where
  metric : Metric
  rankings : List CountryRanking
deriving Repr, DecidableEq

/-- One `(month, value)` point of a historical series. -/
structure HistoricalDataPoint where
  month : String
  value : Int
deriving Repr, DecidableEq

/-- The result of `getCountryHistoricalData`: site identity plus four
parallel time series. -/
structure CountryHistoricalData where
  country : String
  tld : String
  performance : List HistoricalDataPoint
  accessibility : List HistoricalDataPoint
  bestPractices : List HistoricalDataPoint
  seo : List HistoricalDataPoint
deriving Repr, DecidableEq

/-- One entry of `reports/manifest.json`. -/
structure ManifestEntry where
  month : String
  filename : String
  generatedAt : String
deriving Repr, DecidableEq

/-! ### String ordering

The comparators `a.country.localeCompare(b.country)` and
`b.month.localeCompare(a.month)` are modelled by lexicographic comparison
of the character sequences (code-point order, which is what matters for
the ASCII month keys and site names of this data set). -/

/-- Lexicographic "less or equal" on character lists. -/
def charsLeB : List Char → List Char → Bool
  | [], _ => true
  | _ :: _, [] => false
  | a :: as, b :: bs => if a < b then true else if b < a then false else charsLeB as bs

/-- `strLe s t` models `s.localeCompare(t) <= 0`. -/
def strLe (s t : String) : Prop := charsLeB s.data t.data = true

instance : DecidableRel strLe := fun s t =>
  inferInstanceAs (Decidable (charsLeB s.data t.data = true))

theorem charsLeB_cons {a b : Char} {as bs : List Char} :
    charsLeB (a :: as) (b :: bs) = true ↔ a < b ∨ (a = b ∧ charsLeB as bs = true) := by
  by_cases h1 : a < b
  · simp [charsLeB, h1]
  · by_cases h2 : b < a
    · have hne : a ≠ b := fun e => absurd (e ▸ h2) (lt_irrefl a)
      simp [charsLeB, h1, h2, hne]
    · have heq : a = b := ((lt_trichotomy a b).resolve_left h1).resolve_right h2
      simp [charsLeB, h1, h2, heq]

theorem charsLeB_total : ∀ as bs : List Char, charsLeB as bs = true ∨ charsLeB bs as = true
  | [], _ => Or.inl rfl
  | _ :: _, [] => Or.inr rfl
  | a :: as, b :: bs => by
    rcases lt_trichotomy a b with h | h | h
    · exact Or.inl (charsLeB_cons.mpr (Or.inl h))
    · rcases charsLeB_total as bs with ih | ih
      · exact Or.inl (charsLeB_cons.mpr (Or.inr ⟨h, ih⟩))
      · exact Or.inr (charsLeB_cons.mpr (Or.inr ⟨h.symm, ih⟩))
    · exact Or.inr (charsLeB_cons.mpr (Or.inl h))

theorem charsLeB_trans :
    ∀ as bs cs : List Char,
      charsLeB as bs = true → charsLeB bs cs = true → charsLeB as cs = true
  | [], _, _, _, _ => rfl
  | _ :: _, [], _, h1, _ => by simp [charsLeB] at h1
  | _ :: _, _ :: _, [], _, h2 => by simp [charsLeB] at h2
  | a :: as, b :: bs, c :: cs, h1, h2 => by
    rcases charsLeB_cons.mp h1 with hab | ⟨hab, h1'⟩ <;>
      rcases charsLeB_cons.mp h2 with hbc | ⟨hbc, h2'⟩
    · exact charsLeB_cons.mpr (Or.inl (lt_trans hab hbc))
    · exact charsLeB_cons.mpr (Or.inl (hbc ▸ hab))
    · exact charsLeB_cons.mpr (Or.inl (hab ▸ hbc))
    · exact charsLeB_cons.mpr (Or.inr ⟨hab.trans hbc, charsLeB_trans as bs cs h1' h2'⟩)

theorem strLe_total (s t : String) : strLe s t ∨ strLe t s :=
  charsLeB_total s.data t.data

theorem strLe_trans {s t u : String} (h1 : strLe s t) (h2 : strLe t u) : strLe s u :=
  charsLeB_trans s.data t.data u.data h1 h2

theorem strLe_refl (s : String) : strLe s s :=
  (strLe_total s s).elim id id

theorem strLe_of_eq {s t : String} (h : s = t) : strLe s t := h ▸ strLe_refl s

/-! ### Raw audit input (the Lighthouse result `lhr`) -/

/-- One element of `category.auditRefs`: an audit id plus its weight
(`ref.weight` may be absent, read as `ref.weight || 0`). -/
structure AuditRef where
  id : String
  weight : Option ℚ
deriving Repr, DecidableEq

/-- One entry of the global `lhr.audits` lookup.  `details` records whether
the audit carries a structured details object (JavaScript truthiness of
`audit.details`). -/
structure RawAudit where
  title : String
  description : String
  score : Option ℚ
  scoreDisplayMode : String
  displayValue : Option String
  numericValue : Option ℚ
  numericUnit : Option String
  details : Bool
deriving Repr, DecidableEq

/-- One extracted issue as pushed onto `failedAudits`. -/
structure AuditIssue where
  id : String
  title : String
  description : String
  score : Option ℚ
  scoreDisplayMode : String
  displayValue : Option String
  severity : String
  weight : ℚ
  numericValue : Option ℚ
  numericUnit : Option String
deriving Repr, DecidableEq

/-- The categorized issue lists of a detail-form report. -/
structure CategorizedAudits where
  performance : List AuditIssue
  accessibility : List AuditIssue
  bestPractices : List AuditIssue
  seo : List AuditIssue
deriving Repr, DecidableEq

/-- The five named timing fields of a detail-form report. -/
structure TimingMetrics where
  firstContentfulPaint : Option ℚ
  largestContentfulPaint : Option ℚ
  totalBlockingTime : Option ℚ
  cumulativeLayoutShift : Option ℚ
  speedIndex : Option ℚ
deriving Repr, DecidableEq

/-- The full `metrics` object built by `extractMetrics` (detail form). -/
structure ExtractedMetrics where
  performance : Int
  accessibility : Int
  bestPractices : Int
  seo : Int
  audits : CategorizedAudits
  timing : TimingMetrics
deriving Repr, DecidableEq

/-- One newly extracted detail-form report as appended to the batch in
`auditAllCountries`. -/
structure NewReport where
  country : String
  tld : String
  url : String
  timestamp : String
  metrics : ExtractedMetrics
deriving Repr, DecidableEq

/-! ### Metric Extractor (`extractMetrics` in `scripts/audit.js`) -/

/-- JavaScript `x || null` on an optional string: the empty string is falsy
and collapses to `null`. -/
def orNullStr (v : Option String) : Option String :=
  match v with
  | some s => if s = "" then none else some s
  | none => none

/-- JavaScript `x || null` on an optional number: `0` is falsy and collapses
to `null`. -/
def orNullNum (v : Option ℚ) : Option ℚ :=
  match v with
  | some q => if q = 0 then none else some q
  | none => none

/-- The issue record pushed onto `failedAudits` for one audit reference
(the object literal in `extractAuditsForCategory`, with `score` the raw
score treated-null-as-1). -/
def buildIssue (ref : AuditRef) (audit : RawAudit) : AuditIssue :=
  { id := ref.id
    title := audit.title
    description := audit.description
    score := audit.score
    scoreDisplayMode := audit.scoreDisplayMode
    displayValue := orNullStr audit.displayValue
    severity :=
      if audit.score.getD 1 = 0 then "high"
      else if audit.score.getD 1 < 1/2 then "medium" else "low"
    weight := ref.weight.getD 0
    numericValue := orNullNum audit.numericValue
    numericUnit := audit.numericUnit }

/-- Processing of a single `auditRefs` element inside
`extractAuditsForCategory`: look the audit up by id (skipping refs with no
entry), apply the inclusion test and build the issue record. -/
def extractOne (audits : String → Option RawAudit) (ref : AuditRef) :
    Option AuditIssue :=
  match audits ref.id with
  | none => none
  | some audit =>
    let score : ℚ := audit.score.getD 1
    if score < 1 ∨ (audit.scoreDisplayMode = "informative" ∧ audit.details) then
      some (buildIssue ref audit)
    else none

/-- Rank used by the severity comparator (`severityOrder`). -/
def severityRank (s : String) : Nat :=
  if s = "high" then 0 else if s = "medium" then 1 else 2

/-- The sort order of `failedAudits.sort(...)`: ascending severity rank,
then descending weight; `bySeverity a b` holds when the comparator does not
put `b` strictly before `a`. -/
def bySeverity (a b : AuditIssue) : Prop :=
  severityRank a.severity < severityRank b.severity ∨
    (severityRank a.severity = severityRank b.severity ∧ b.weight ≤ a.weight)

instance : DecidableRel bySeverity := fun a b =>
  inferInstanceAs (Decidable (severityRank a.severity < severityRank b.severity ∨
    (severityRank a.severity = severityRank b.severity ∧ b.weight ≤ a.weight)))

/-- `extractAuditsForCategory`: filter the category's audit refs through
the inclusion test, then stable-sort by (severity rank asc, weight desc). -/
def extractAuditsForCategory (audits : String → Option RawAudit)
    (auditRefs : List AuditRef) : List AuditIssue :=
  List.insertionSort bySeverity (auditRefs.filterMap (extractOne audits))

/-- One timing field: `audits[key]?.numericValue || null` (absent entry,
absent numeric value and the falsy value `0` all yield `null`). -/
def timingField (audits : String → Option RawAudit) (key : String) : Option ℚ :=
  match audits key with
  | none => none
  | some audit => orNullNum audit.numericValue

/-- The `timing` block of `extractMetrics`. -/
def extractTiming (audits : String → Option RawAudit) : TimingMetrics :=
  { firstContentfulPaint := timingField audits "first-contentful-paint"
    largestContentfulPaint := timingField audits "largest-contentful-paint"
    totalBlockingTime := timingField audits "total-blocking-time"
    cumulativeLayoutShift := timingField audits "cumulative-layout-shift"
    speedIndex := timingField audits "speed-index" }

/-! ### Report Merger (`saveReport` in `scripts/audit.js`) -/

/-- The summary projection built inside the merge loop: drop `audits` and
`timing`, keep the four scores. -/
def summaryOf (n : NewReport) : CountryReport :=
  { country := n.country
    tld := n.tld
    url := n.url
    timestamp := n.timestamp
    metrics :=
      { performance := n.metrics.performance
        accessibility := n.metrics.accessibility
        bestPractices := n.metrics.bestPractices
        seo := n.metrics.seo } }

/-- Generic keyed upsert: replace the first element whose key equals the
key of `x` (the `findIndex` / assign-in-place branch), otherwise append
(`push`). -/
def upsertBy {α : Type} (key : α → String) (x : α) : List α → List α
  | [] => [x]
  | y :: l => if key y = key x then x :: l else y :: upsertBy key x l

/-- First element of `l` whose key is `n` (the element `findIndex` locates). -/
def findByKey {α : Type} (key : α → String) (n : String) (l : List α) : Option α :=
  l.find? (fun y => key y == n)

/-- A batch of keyed upserts applied in order, upserting `f b` for each
batch element `b`. -/
def upsertAll {α β : Type} (key : α → String) (f : β → α) (l : List α)
    (bs : List β) : List α :=
  bs.foldl (fun acc b => upsertBy key (f b) acc) l

/-- The merge loop of `saveReport`: fold the batch over the prior summary
entries, upserting each new report's summary projection keyed by the
`country` field (`allReports.findIndex(r => r.country === newReport.country)`). -/
def mergeReports (prior : List CountryReport) (newReports : List NewReport) :
    List CountryReport :=
  upsertAll (fun r => r.country) summaryOf prior newReports

/-- The final sort of `saveReport`:
`allReports.sort((a, b) => a.country.localeCompare(b.country))` —
ascending by country name. -/
def byCountryAsc (a b : CountryReport) : Prop := strLe a.country b.country

instance : DecidableRel byCountryAsc := fun a b =>
  inferInstanceAs (Decidable (strLe a.country b.country))

instance : IsTotal CountryReport byCountryAsc :=
  ⟨fun a b => strLe_total a.country b.country⟩

instance : IsTrans CountryReport byCountryAsc :=
  ⟨fun _ _ _ h h' => strLe_trans h h'⟩

/-- The summary entry list written by `saveReport`: merge then sort by
country name ascending. -/
def saveReportSummary (prior : List CountryReport) (newReports : List NewReport) :
    List CountryReport :=
  List.insertionSort byCountryAsc (mergeReports prior newReports)

/-- The full monthly summary document written by `saveReport`
(`{ month, generatedAt, reports }` with `generatedAt = now.toISOString()`). -/
def saveReportDoc (month generatedAt : String) (prior : List CountryReport)
    (newReports : List NewReport) : MonthlyReport :=
  { month := month, generatedAt := generatedAt
    reports := saveReportSummary prior newReports }

/-! ### Manifest Indexer (`updateManifest` in `scripts/audit.js`) -/

/-- The manifest sort:
`manifest.reports.sort((a, b) => b.month.localeCompare(a.month))` —
descending by month key. -/
def byMonthDesc (a b : ManifestEntry) : Prop := strLe b.month a.month

instance : DecidableRel byMonthDesc := fun a b =>
  inferInstanceAs (Decidable (strLe b.month a.month))

instance : IsTotal ManifestEntry byMonthDesc :=
  ⟨fun a b => strLe_total b.month a.month⟩

instance : IsTrans ManifestEntry byMonthDesc :=
  ⟨fun _ _ _ h h' => strLe_trans h' h⟩

/-- `updateManifest` on the in-memory entry list: replace the entry of the
same month in place or append, then re-sort descending by month. -/
def updateManifest (reports : List ManifestEntry) (e : ManifestEntry) :
    List ManifestEntry :=
  List.insertionSort byMonthDesc (upsertBy (fun r => r.month) e reports)

/-- A sequence of manifest upserts applied in order. -/
def updateManifestAll (init : List ManifestEntry) (es : List ManifestEntry) :
    List ManifestEntry :=
  es.foldl updateManifest init

/-! ### Persistence behaviour on missing / malformed documents -/

/-- State of a persisted JSON document on disk. -/
inductive StoredDoc (α : Type) where
  | absent
  | malformed
  | wellFormed (content : α)
deriving Repr, DecidableEq

/-- Reading the prior summary in `saveReport`: a missing file leaves
`allReports = []`; `JSON.parse` is wrapped in try/catch and a parse failure
warns and starts from `[]` as well. -/
def readPriorSummary : StoredDoc (List CountryReport) → List CountryReport
  | .absent => []
  | .malformed => []
  | .wellFormed rs => rs

/-- Reading the manifest in `updateManifest`: a missing file yields the
empty manifest, but `JSON.parse` is not guarded there, so a malformed
manifest raises (modelled as `Except.error`). -/
def readManifestDoc : StoredDoc (List ManifestEntry) →
    Except Unit (List ManifestEntry)
  | .absent => .ok []
  | .malformed => .error ()
  | .wellFormed m => .ok m

/-- `saveReport` starting from the stored summary document. -/
def saveReportFromStore (doc : StoredDoc (List CountryReport))
    (newReports : List NewReport) : List CountryReport :=
  saveReportSummary (readPriorSummary doc) newReports

/-- `updateManifest` starting from the stored manifest document. -/
def updateManifestFromStore (doc : StoredDoc (List ManifestEntry))
    (e : ManifestEntry) : Except Unit (List ManifestEntry) :=
  (readManifestDoc doc).map (fun m => updateManifest m e)

/-! ### Ranking Engine (`calculateRankings` in `src/utils/dataLoader.ts`) -/

/-- The ranking sort: `(a, b) => b.metrics[metric] - a.metrics[metric]` —
descending by the selected metric. -/
def byMetricDesc (metric : Metric) (a b : CountryReport) : Prop :=
  b.metrics.get metric ≤ a.metrics.get metric

instance (metric : Metric) : DecidableRel (byMetricDesc metric) := fun a b =>
  inferInstanceAs (Decidable (b.metrics.get metric ≤ a.metrics.get metric))

instance (metric : Metric) : IsTotal CountryReport (byMetricDesc metric) :=
  ⟨fun a b => le_total (b.metrics.get metric) (a.metrics.get metric)⟩

instance (metric : Metric) : IsTrans CountryReport (byMetricDesc metric) :=
  ⟨fun _ _ _ h h' => le_trans h' h⟩

/-- The body of `sorted.map((report, index) => ...)`: `rank = index + 1`;
when a previous summary is given and contains the site, the previous rank
is the 1-based position in the previous summary sorted the same way
(`prevSorted.findIndex(...) + 1`) and `change = previousRank - rank`;
otherwise both stay `undefined`. -/
def mkRanking (previousReport : Option MonthlyReport) (metric : Metric)
    (index : Nat) (report : CountryReport) : CountryRanking :=
  let rank := index + 1
  let pr : Option Nat × Option Int :=
    match previousReport with
    | none => (none, none)
    | some prev =>
      match prev.reports.find? (fun r => r.tld == report.tld) with
      | none => (none, none)
      | some _ =>
        let prevSorted := List.insertionSort (byMetricDesc metric) prev.reports
        let previousRank := prevSorted.findIdx (fun r => r.tld == report.tld) + 1
        (some previousRank, some ((previousRank : Int) - (rank : Int)))
  { country := report.country
    tld := report.tld
    rank := rank
    score := report.metrics.get metric
    previousRank := pr.1
    change := pr.2 }

/-- `sorted.map((report, index) => ...)` with the running index made
explicit. -/
def assignRanks (previousReport : Option MonthlyReport) (metric : Metric) :
    Nat → List CountryReport → List CountryRanking
  | _, [] => []
  | index, report :: rest =>
    mkRanking previousReport metric index report ::
      assignRanks previousReport metric (index + 1) rest

/-- `calculateRankings`: stable-sort the current reports descending by the
selected metric, then assign ranks and previous-period deltas. -/
def calculateRankings (currentReport : MonthlyReport)
    (previousReport : Option MonthlyReport) (metric : Metric) : MetricRankings :=
  { metric := metric
    rankings :=
      assignRanks previousReport metric 0
        (List.insertionSort (byMetricDesc metric) currentReport.reports) }

/-- The 1-based position of a site in the previous summary when it is
independently sorted descending by the same metric
(`prevSorted.findIndex(r => r.tld === report.tld) + 1`). -/
def prevRankOf (prev : MonthlyReport) (metric : Metric) (tld : String) : Nat :=
  (List.insertionSort (byMetricDesc metric) prev.reports).findIdx
    (fun r => r.tld == tld) + 1

/-! ### Historical Series Builder (`getCountryHistoricalData`) -/

/-- Sort of the monthly summaries:
`[...reports].sort((a, b) => a.month.localeCompare(b.month))` — ascending
by month key. -/
def byMonthAsc (a b : MonthlyReport) : Prop := strLe a.month b.month

instance : DecidableRel byMonthAsc := fun a b =>
  inferInstanceAs (Decidable (strLe a.month b.month))

instance : IsTotal MonthlyReport byMonthAsc :=
  ⟨fun a b => strLe_total a.month b.month⟩

instance : IsTrans MonthlyReport byMonthAsc :=
  ⟨fun _ _ _ h h' => strLe_trans h h'⟩

/-- `getCountryHistoricalData`: sort summaries ascending by month, retain
the target site's entry of each month where present, and pair the retained
reports with months by position — `countryReports.map((r, i) =>
({ month: sortedReports[i].month, ... }))`, i.e. the i-th retained report
is paired with the i-th month of the sorted summary list (not with the
month it was retained from). -/
def getCountryHistoricalData (reports : List MonthlyReport) (tld : String) :
    Option CountryHistoricalData :=
  let sortedReports := List.insertionSort byMonthAsc reports
  let countryReports :=
    sortedReports.filterMap (fun report => report.reports.find? (fun r => r.tld == tld))
  match countryReports with
  | [] => none
  | firstReport :: _ =>
    some
      { country := firstReport.country
        tld := firstReport.tld
        performance :=
          List.zipWith (fun r rep => { month := rep.month, value := r.metrics.performance })
            countryReports sortedReports
        accessibility :=
          List.zipWith (fun r rep => { month := rep.month, value := r.metrics.accessibility })
            countryReports sortedReports
        bestPractices :=
          List.zipWith (fun r rep => { month := rep.month, value := r.metrics.bestPractices })
            countryReports sortedReports
        seo :=
          List.zipWith (fun r rep => { month := rep.month, value := r.metrics.seo })
            countryReports sortedReports }

/-! ### Concrete inputs used by counterexamples and witnesses -/

/-- A summary-form metrics block. -/
def mets0 : LighthouseMetrics := ⟨10, 11, 12, 13⟩

/-- A detail-form metrics block with no issues and no timing data. -/
def emets0 : ExtractedMetrics :=
  ⟨50, 60, 70, 80, ⟨[], [], [], []⟩, ⟨none, none, none, none, none⟩⟩

/-- A prior summary holding one site named "Gov A" with identifier "x". -/
def priorSameTld : List CountryReport :=
  [⟨"Gov A", "x", "https://a.example", "t0", mets0⟩]

/-- A batch holding one report with the same identifier "x" but the
different name "Gov B". -/
def batchSameTld : List NewReport :=
  [⟨"Gov B", "x", "https://b.example", "t1", emets0⟩]

/-- Three monthly summaries: the site "x" is present in 2024-01 and
2024-03 but absent in 2024-02. -/
def histEx : List MonthlyReport :=
  [⟨"2024-01", "g1", [⟨"Xland", "x", "https://x.example", "t", ⟨10, 11, 12, 13⟩⟩]⟩,
   ⟨"2024-02", "g2", []⟩,
   ⟨"2024-03", "g3", [⟨"Xland", "x", "https://x.example", "t", ⟨30, 31, 32, 33⟩⟩]⟩]

/-- A summary-form report whose performance score is `s`. -/
def mkSite (name tld : String) (s : Int) : CountryReport :=
  ⟨name, tld, "https://site.example", "t", ⟨s, 0, 0, 0⟩⟩

/-- Previous month: site "e" scores 50 and ranks 5th on performance. -/
def prevEx : MonthlyReport :=
  ⟨"2024-01", "g",
    [mkSite "S1" "s1" 90, mkSite "S2" "s2" 80, mkSite "S3" "s3" 70,
     mkSite "S4" "s4" 60, mkSite "E" "e" 50]⟩

/-- Current month: site "e" scores 85 and ranks 2nd on performance. -/
def curEx : MonthlyReport :=
  ⟨"2024-02", "g",
    [mkSite "S1" "s1" 90, mkSite "S2" "s2" 80, mkSite "S3" "s3" 70,
     mkSite "S4" "s4" 60, mkSite "E" "e" 85]⟩

/-- The ranking record `calculateRankings` produces for site "e" on the
example months: rank 2, previous rank 5, change +3. -/
def recE : CountryRanking := ⟨"E", "e", 2, 85, some 5, some 3⟩

/-- A failed audit: raw score 0. -/
def auditW : RawAudit :=
  ⟨"Background and foreground colors have a sufficient contrast ratio",
    "desc", some 0, "binary", some "Fix contrast", none, none, false⟩

/-- The audit reference for `auditW`. -/
def refW : AuditRef := ⟨"color-contrast", some 3⟩

/-- An audit lookup with a single entry. -/
def lookupW : String → Option RawAudit :=
  fun k => if k = "color-contrast" then some auditW else none

/-- An audit reference whose id has no entry in `lookupW`. -/
def refU : AuditRef := ⟨"unknown-audit", none⟩

/-- An audit whose numeric value is exactly 0 (a perfect layout-shift
measurement). -/
def clsAudit : RawAudit :=
  ⟨"Cumulative Layout Shift", "desc", some 1, "numeric", none, some 0,
    some "unitless", false⟩

/-- An audit lookup holding only the `cumulative-layout-shift` entry. -/
def timingAudits : String → Option RawAudit :=
  fun k => if k = "cumulative-layout-shift" then some clsAudit else none

/-- A manifest entry. -/
def entryC9 : ManifestEntry := ⟨"2024-05", "2024-05-summary.json", "ts"⟩

/-! ## Lemmas

### Keyed upsert -/

theorem findByKey_cons {α : Type} (key : α → String) (n : String) (y : α)
    (l : List α) :
    findByKey key n (y :: l) = if key y = n then some y else findByKey key n l := by
  by_cases h : key y = n
  · rw [findByKey, List.find?_cons_of_pos _ (by simp [h]), if_pos h]
  · rw [findByKey, List.find?_cons_of_neg _ (by simp [h]), if_neg h]; rfl

theorem findByKey_upsertBy_self {α : Type} (key : α → String) (x : α) :
    ∀ l : List α, findByKey key (key x) (upsertBy key x l) = some x
  | [] => by rw [upsertBy, findByKey_cons, if_pos rfl]
  | y :: l => by
    by_cases h : key y = key x
    · rw [upsertBy, if_pos h, findByKey_cons, if_pos rfl]
    · rw [upsertBy, if_neg h, findByKey_cons, if_neg h]
      exact findByKey_upsertBy_self key x l

theorem findByKey_upsertBy_ne {α : Type} (key : α → String) (x : α) (n : String)
    (h : key x ≠ n) : ∀ l : List α,
    findByKey key n (upsertBy key x l) = findByKey key n l
  | [] => by
    rw [upsertBy, findByKey_cons, if_neg h]
  | y :: l => by
    by_cases hy : key y = key x
    · rw [upsertBy, if_pos hy, findByKey_cons, if_neg h, findByKey_cons,
        if_neg (hy ▸ h)]
    · rw [upsertBy, if_neg hy, findByKey_cons, findByKey_cons,
        findByKey_upsertBy_ne key x n h l]

theorem upsertBy_eq_self {α : Type} (key : α → String) (x : α) :
    ∀ l : List α, findByKey key (key x) l = some x → upsertBy key x l = l
  | [], h => by rw [findByKey] at h; exact absurd h (by simp)
  | y :: l, h => by
    rw [findByKey_cons] at h
    by_cases hy : key y = key x
    · rw [if_pos hy] at h
      rw [upsertBy, if_pos hy, Option.some_inj.mp h]
    · rw [if_neg hy] at h
      rw [upsertBy, if_neg hy, upsertBy_eq_self key x l h]

theorem upsertBy_upsertBy_same {α : Type} (key : α → String) (x x' : α)
    (hk : key x' = key x) : ∀ l : List α,
    upsertBy key x' (upsertBy key x l) = upsertBy key x' l
  | [] => by
    show upsertBy key x' [x] = [x']
    rw [upsertBy, if_pos hk.symm]
  | y :: l => by
    by_cases hy : key y = key x
    · have e1 : upsertBy key x (y :: l) = x :: l := by rw [upsertBy, if_pos hy]
      have e2 : upsertBy key x' (x :: l) = x' :: l := by
        rw [upsertBy, if_pos hk.symm]
      have e3 : upsertBy key x' (y :: l) = x' :: l := by
        rw [upsertBy, if_pos (hy.trans hk.symm)]
      rw [e1, e2, e3]
    · have hy' : key y ≠ key x' := fun e => hy (e.trans hk)
      have e1 : upsertBy key x (y :: l) = y :: upsertBy key x l := by
        rw [upsertBy, if_neg hy]
      have e2 : upsertBy key x' (y :: upsertBy key x l) =
          y :: upsertBy key x' (upsertBy key x l) := by
        rw [upsertBy, if_neg hy']
      have e3 : upsertBy key x' (y :: l) = y :: upsertBy key x' l := by
        rw [upsertBy, if_neg hy']
      rw [e1, e2, e3, upsertBy_upsertBy_same key x x' hk l]

theorem findByKey_isSome_iff {α : Type} (key : α → String) (n : String) :
    ∀ l : List α, (findByKey key n l).isSome ↔ n ∈ l.map key
  | [] => by simp [findByKey]
  | y :: l => by
    rw [findByKey_cons]
    by_cases hy : key y = n
    · simp [hy]
    · rw [if_neg hy]
      simp only [List.map_cons, List.mem_cons]
      rw [findByKey_isSome_iff key n l]
      exact ⟨Or.inr, fun h => h.elim (fun e => absurd e.symm hy) id⟩

theorem upsertBy_comm {α : Type} (key : α → String) (x x' : α)
    (hne : key x' ≠ key x) : ∀ l : List α,
    (findByKey key (key x) l).isSome →
      upsertBy key x' (upsertBy key x l) = upsertBy key x (upsertBy key x' l)
  | [], h => by rw [findByKey] at h; simp at h
  | y :: l, h => by
    rw [findByKey_cons] at h
    by_cases hy : key y = key x
    · have e1 : upsertBy key x (y :: l) = x :: l := by rw [upsertBy, if_pos hy]
      have e2 : upsertBy key x' (x :: l) = x :: upsertBy key x' l := by
        rw [upsertBy, if_neg (fun e => hne e.symm)]
      have e3 : upsertBy key x' (y :: l) = y :: upsertBy key x' l := by
        rw [upsertBy, if_neg (fun e => hne (e.symm.trans hy))]
      have e4 : upsertBy key x (y :: upsertBy key x' l) = x :: upsertBy key x' l := by
        rw [upsertBy, if_pos hy]
      rw [e1, e2, e3, e4]
    · rw [if_neg hy] at h
      by_cases hy' : key y = key x'
      · have e1 : upsertBy key x (y :: l) = y :: upsertBy key x l := by
          rw [upsertBy, if_neg hy]
        have e2 : upsertBy key x' (y :: upsertBy key x l) = x' :: upsertBy key x l := by
          rw [upsertBy, if_pos hy']
        have e3 : upsertBy key x' (y :: l) = x' :: l := by
          rw [upsertBy, if_pos hy']
        have e4 : upsertBy key x (x' :: l) = x' :: upsertBy key x l := by
          rw [upsertBy, if_neg hne]
        rw [e1, e2, e3, e4]
      · have e1 : upsertBy key x (y :: l) = y :: upsertBy key x l := by
          rw [upsertBy, if_neg hy]
        have e2 : upsertBy key x' (y :: upsertBy key x l) =
            y :: upsertBy key x' (upsertBy key x l) := by
          rw [upsertBy, if_neg hy']
        have e3 : upsertBy key x' (y :: l) = y :: upsertBy key x' l := by
          rw [upsertBy, if_neg hy']
        have e4 : upsertBy key x (y :: upsertBy key x' l) =
            y :: upsertBy key x (upsertBy key x' l) := by
          rw [upsertBy, if_neg hy]
        rw [e1, e2, e3, e4, upsertBy_comm key x x' hne l h]

theorem findByKey_upsertBy_isSome {α : Type} (key : α → String) (x : α)
    (n : String) (l : List α) (h : (findByKey key n l).isSome) :
    (findByKey key n (upsertBy key x l)).isSome := by
  by_cases hx : key x = n
  · subst hx; rw [findByKey_upsertBy_self]; rfl
  · rw [findByKey_upsertBy_ne key x n hx]; exact h

theorem upsertAll_cons {α β : Type} (key : α → String) (f : β → α) (l : List α)
    (b : β) (bs : List β) :
    upsertAll key f l (b :: bs) = upsertAll key f (upsertBy key (f b) l) bs := rfl

theorem findByKey_upsertAll_ne {α β : Type} (key : α → String) (f : β → α) :
    ∀ (bs : List β) (l : List α) (n : String), (∀ b ∈ bs, key (f b) ≠ n) →
      findByKey key n (upsertAll key f l bs) = findByKey key n l
  | [], _, _, _ => rfl
  | b :: bs, l, n, h => by
    rw [upsertAll_cons,
      findByKey_upsertAll_ne key f bs _ n (fun x hx => h x (List.mem_cons_of_mem b hx)),
      findByKey_upsertBy_ne key (f b) n (h b (List.mem_cons_self b bs))]

theorem findByKey_upsertAll_isSome {α β : Type} (key : α → String) (f : β → α) :
    ∀ (bs : List β) (l : List α) (n : String), (findByKey key n l).isSome →
      (findByKey key n (upsertAll key f l bs)).isSome
  | [], _, _, h => h
  | b :: bs, l, n, h =>
    findByKey_upsertAll_isSome key f bs _ n
      (findByKey_upsertBy_isSome key (f b) n l h)

theorem findByKey_upsertAll_mem {α β : Type} (key : α → String) (f : β → α) :
    ∀ (bs : List β) (l : List α) (n : String), (∃ b ∈ bs, key (f b) = n) →
      findByKey key n (upsertAll key f l bs) =
        (bs.reverse.find? (fun b => key (f b) == n)).map f
  | [], _, _, h => absurd h (by simp)
  | b :: bs, l, n, h => by
    rw [upsertAll_cons, List.reverse_cons, List.find?_append]
    by_cases hr : ∃ x ∈ bs, key (f x) = n
    · have hsome : (bs.reverse.find? (fun x => key (f x) == n)).isSome := by
        rw [List.find?_isSome]
        obtain ⟨x, hx, he⟩ := hr
        exact ⟨x, by simpa using hx, by simp [he]⟩
      rw [findByKey_upsertAll_mem key f bs _ n hr]
      cases hf : bs.reverse.find? (fun x => key (f x) == n) with
      | none => rw [hf] at hsome; simp at hsome
      | some z => rw [Option.or_some]
    · push_neg at hr
      have hb : key (f b) = n := by
        obtain ⟨x, hx, he⟩ := h
        rcases List.mem_cons.mp hx with rfl | hmem
        · exact he
        · exact absurd he (hr x hmem)
      subst hb
      have h1 : bs.reverse.find? (fun x => key (f x) == key (f b)) = none := by
        rw [List.find?_eq_none]
        intro x hx
        simpa using hr x (by simpa using hx)
      have h2 : List.find? (fun x => key (f x) == key (f b)) [b] = some b :=
        List.find?_cons_of_pos _ (by simp)
      rw [h1, h2, Option.none_or,
        findByKey_upsertAll_ne key f bs _ (key (f b)) hr,
        findByKey_upsertBy_self key (f b) l]
      rfl

theorem upsertAll_absorb {α β : Type} (key : α → String) (f : β → α) :
    ∀ (bs : List β) (l : List α) (x : α),
      (findByKey key (key x) l).isSome → (∃ r ∈ bs, key (f r) = key x) →
      upsertAll key f (upsertBy key x l) bs = upsertAll key f l bs
  | [], _, _, _, hmem => absurd hmem (by simp)
  | r :: bs, l, x, hsome, hmem => by
    rw [upsertAll_cons, upsertAll_cons]
    by_cases hc : key (f r) = key x
    · rw [upsertBy_upsertBy_same key x (f r) hc l]
    · rw [upsertBy_comm key x (f r) hc l hsome]
      have hmem' : ∃ r' ∈ bs, key (f r') = key x := by
        obtain ⟨r', hr', he⟩ := hmem
        rcases List.mem_cons.mp hr' with rfl | hm
        · exact absurd he hc
        · exact ⟨r', hm, he⟩
      exact upsertAll_absorb key f bs (upsertBy key (f r) l) x
        (findByKey_upsertBy_isSome key (f r) (key x) l hsome) hmem'

theorem upsertAll_no_change {α β : Type} (key : α → String) (f : β → α) :
    ∀ (bs : List β) (l : List α),
      (∀ b ∈ bs, findByKey key (key (f b)) l =
        (bs.reverse.find? (fun x => key (f x) == key (f b))).map f) →
      upsertAll key f l bs = l
  | [], _, _ => rfl
  | b :: bs, l, h => by
    have hrest : ∀ b' ∈ bs, findByKey key (key (f b')) l =
        (bs.reverse.find? (fun x => key (f x) == key (f b'))).map f := by
      intro b' hb'
      have hs : (bs.reverse.find? (fun x => key (f x) == key (f b'))).isSome := by
        rw [List.find?_isSome]
        exact ⟨b', by simpa using hb', by simp⟩
      have hh := h b' (List.mem_cons_of_mem b hb')
      rw [List.reverse_cons, List.find?_append] at hh
      cases hf : bs.reverse.find? (fun x => key (f x) == key (f b')) with
      | none => rw [hf] at hs; simp at hs
      | some z => rw [hf, Option.or_some] at hh; exact hh
    rw [upsertAll_cons]
    by_cases hr : ∃ r ∈ bs, key (f r) = key (f b)
    · have hsome : (findByKey key (key (f b)) l).isSome := by
        rw [h b (List.mem_cons_self b bs)]
        have hs : (((b :: bs).reverse).find?
            (fun x => key (f x) == key (f b))).isSome := by
          rw [List.find?_isSome]
          exact ⟨b, by simp, by simp⟩
        cases hf : ((b :: bs).reverse).find? (fun x => key (f x) == key (f b)) with
        | none => rw [hf] at hs; simp at hs
        | some z => simp [hf]
      rw [upsertAll_absorb key f bs l (f b) hsome hr,
        upsertAll_no_change key f bs l hrest]
    · have hb : findByKey key (key (f b)) l = some (f b) := by
        have hh := h b (List.mem_cons_self b bs)
        rw [List.reverse_cons, List.find?_append] at hh
        have h1 : bs.reverse.find? (fun x => key (f x) == key (f b)) = none := by
          rw [List.find?_eq_none]
          intro x hx
          push_neg at hr
          simpa using hr x (by simpa using hx)
        have h2 : List.find? (fun x => key (f x) == key (f b)) [b] = some b :=
          List.find?_cons_of_pos _ (by simp)
        rw [h1, h2, Option.none_or] at hh
        exact hh
      rw [upsertBy_eq_self key (f b) l hb, upsertAll_no_change key f bs l hrest]

/-! ### Stability of the modelled sort

`List.insertionSort` models the stable JavaScript sort: the elements whose
sort key equals any fixed value keep their input order, expressed here as
invariance of key-filtered sublists. -/

theorem filter_orderedInsert_key {α γ : Type} (r : α → α → Prop) [DecidableRel r]
    (keyg : α → γ) [DecidableEq γ] (hkey : ∀ a b, keyg a = keyg b → r a b)
    (a : α) (v : γ) : ∀ l : List α,
    (List.orderedInsert r a l).filter (fun x => keyg x == v) =
      if keyg a = v then a :: l.filter (fun x => keyg x == v)
      else l.filter (fun x => keyg x == v)
  | [] => by
    by_cases h : keyg a = v <;>
      simp [List.orderedInsert, List.filter_cons, h]
  | b :: l => by
    rw [List.orderedInsert]
    by_cases hrel : r a b
    · rw [if_pos hrel, List.filter_cons]
      by_cases h : keyg a = v <;> simp [h]
    · rw [if_neg hrel, List.filter_cons,
        filter_orderedInsert_key r keyg hkey a v l]
      by_cases ha : keyg a = v
      · by_cases hb : keyg b = v
        · exact absurd (hkey a b (ha.trans hb.symm)) hrel
        · simp [ha, hb, List.filter_cons]
      · by_cases hb : keyg b = v <;> simp [ha, hb, List.filter_cons]

theorem filter_insertionSort_key {α γ : Type} (r : α → α → Prop) [DecidableRel r]
    (keyg : α → γ) [DecidableEq γ] (hkey : ∀ a b, keyg a = keyg b → r a b)
    (v : γ) : ∀ l : List α,
    (List.insertionSort r l).filter (fun x => keyg x == v) =
      l.filter (fun x => keyg x == v)
  | [] => rfl
  | a :: l => by
    rw [List.insertionSort, filter_orderedInsert_key r keyg hkey a v,
      filter_insertionSort_key r keyg hkey v l, List.filter_cons]
    by_cases h : keyg a = v <;> simp [h]

theorem findByKey_eq_head_filter {α : Type} (key : α → String) (n : String) :
    ∀ l : List α, findByKey key n l = (l.filter (fun x => key x == n)).head?
  | [] => rfl
  | y :: l => by
    rw [findByKey_cons, List.filter_cons]
    by_cases h : key y = n
    · simp [h]
    · simp [h, findByKey_eq_head_filter key n l]

theorem findByKey_insertionSort {α : Type} (r : α → α → Prop) [DecidableRel r]
    (key : α → String) (hkey : ∀ a b, key a = key b → r a b) (n : String)
    (l : List α) :
    findByKey key n (List.insertionSort r l) = findByKey key n l := by
  rw [findByKey_eq_head_filter, findByKey_eq_head_filter,
    filter_insertionSort_key r key hkey n l]

/-! ### Key multiset of an upsert: replacement versus append -/

theorem map_key_upsertBy {α : Type} (key : α → String) (x : α) :
    ∀ l : List α, (upsertBy key x l).map key =
      if (findByKey key (key x) l).isSome then l.map key
      else l.map key ++ [key x]
  | [] => by simp [upsertBy, findByKey]
  | y :: l => by
    by_cases h : key y = key x
    · have e1 : upsertBy key x (y :: l) = x :: l := by rw [upsertBy, if_pos h]
      have e2 : findByKey key (key x) (y :: l) = some y := by
        rw [findByKey_cons, if_pos h]
      rw [e1, e2]
      simp [h]
    · have e1 : upsertBy key x (y :: l) = y :: upsertBy key x l := by
        rw [upsertBy, if_neg h]
      have e2 : findByKey key (key x) (y :: l) = findByKey key (key x) l := by
        rw [findByKey_cons, if_neg h]
      rw [e1, e2, List.map_cons, map_key_upsertBy key x l]
      by_cases hs : (findByKey key (key x) l).isSome <;> simp [hs]

theorem length_upsertBy {α : Type} (key : α → String) (x : α) :
    ∀ l : List α, (upsertBy key x l).length =
      if (findByKey key (key x) l).isSome then l.length else l.length + 1
  | [] => by simp [upsertBy, findByKey]
  | y :: l => by
    by_cases h : key y = key x
    · have e1 : upsertBy key x (y :: l) = x :: l := by rw [upsertBy, if_pos h]
      have e2 : findByKey key (key x) (y :: l) = some y := by
        rw [findByKey_cons, if_pos h]
      rw [e1, e2]
      simp
    · have e1 : upsertBy key x (y :: l) = y :: upsertBy key x l := by
        rw [upsertBy, if_neg h]
      have e2 : findByKey key (key x) (y :: l) = findByKey key (key x) l := by
        rw [findByKey_cons, if_neg h]
      rw [e1, e2, List.length_cons, length_upsertBy key x l]
      by_cases hs : (findByKey key (key x) l).isSome <;> simp [hs]

theorem nodup_map_key_upsertBy {α : Type} (key : α → String) (x : α) (l : List α)
    (h : (l.map key).Nodup) : ((upsertBy key x l).map key).Nodup := by
  rw [map_key_upsertBy]
  by_cases hs : (findByKey key (key x) l).isSome
  · rw [if_pos hs]; exact h
  · rw [if_neg hs, List.nodup_append]
    refine ⟨h, List.nodup_singleton _, fun n hn hx => ?_⟩
    rw [List.mem_singleton] at hx
    subst hx
    exact hs ((findByKey_isSome_iff key (key x) l).mpr hn)

theorem nodup_map_key_upsertAll {α β : Type} (key : α → String) (f : β → α) :
    ∀ (bs : List β) (l : List α), (l.map key).Nodup →
      ((upsertAll key f l bs).map key).Nodup
  | [], _, h => h
  | b :: bs, l, h =>
    nodup_map_key_upsertAll key f bs _ (nodup_map_key_upsertBy key (f b) l h)

theorem length_upsertAll_present {α β : Type} (key : α → String) (f : β → α) :
    ∀ (bs : List β) (l : List α),
      (∀ b ∈ bs, (findByKey key (key (f b)) l).isSome) →
      (upsertAll key f l bs).length = l.length
  | [], _, _ => rfl
  | b :: bs, l, h => by
    rw [upsertAll_cons, length_upsertAll_present key f bs _
      (fun x hx => findByKey_upsertBy_isSome key (f b) _ l
        (h x (List.mem_cons_of_mem b hx))),
      length_upsertBy, if_pos (h b (List.mem_cons_self b bs))]

theorem findByKey_upsertAll_self {α β : Type} (key : α → String) (f : β → α)
    (bs : List β) (l : List α) (b : β) (hb : b ∈ bs) :
    (findByKey key (key (f b)) (upsertAll key f l bs)).isSome := by
  rw [findByKey_upsertAll_mem key f bs l _ ⟨b, hb, rfl⟩]
  have hs : (bs.reverse.find? (fun x => key (f x) == key (f b))).isSome := by
    rw [List.find?_isSome]
    exact ⟨b, by simpa using hb, by simp⟩
  cases hf : bs.reverse.find? (fun x => key (f x) == key (f b)) with
  | none => rw [hf] at hs; simp at hs
  | some z => simp

/-! ### Ranking assignment -/

theorem mkRanking_country (p : Option MonthlyReport) (m : Metric) (i : Nat)
    (r : CountryReport) : (mkRanking p m i r).country = r.country := rfl

theorem mkRanking_tld (p : Option MonthlyReport) (m : Metric) (i : Nat)
    (r : CountryReport) : (mkRanking p m i r).tld = r.tld := rfl

theorem mkRanking_rank (p : Option MonthlyReport) (m : Metric) (i : Nat)
    (r : CountryReport) : (mkRanking p m i r).rank = i + 1 := rfl

theorem mkRanking_score (p : Option MonthlyReport) (m : Metric) (i : Nat)
    (r : CountryReport) : (mkRanking p m i r).score = r.metrics.get m := rfl

theorem mkRanking_prev_found (prev : MonthlyReport) (m : Metric) (i : Nat)
    (r : CountryReport) (w : CountryReport)
    (hf : prev.reports.find? (fun x => x.tld == r.tld) = some w) :
    (mkRanking (some prev) m i r).previousRank = some (prevRankOf prev m r.tld) ∧
    (mkRanking (some prev) m i r).change =
      some ((prevRankOf prev m r.tld : Int) - ((i + 1 : Nat) : Int)) := by
  constructor <;> simp only [mkRanking, prevRankOf, hf]

theorem mkRanking_prev_absent (prev : MonthlyReport) (m : Metric) (i : Nat)
    (r : CountryReport)
    (hf : prev.reports.find? (fun x => x.tld == r.tld) = none) :
    (mkRanking (some prev) m i r).previousRank = none ∧
    (mkRanking (some prev) m i r).change = none := by
  constructor <;> simp only [mkRanking, hf]

theorem assignRanks_length (p : Option MonthlyReport) (m : Metric) :
    ∀ (i : Nat) (l : List CountryReport), (assignRanks p m i l).length = l.length
  | _, [] => rfl
  | i, r :: rest => by
    show (mkRanking p m i r :: assignRanks p m (i + 1) rest).length = rest.length + 1
    rw [List.length_cons, assignRanks_length p m (i + 1) rest]

theorem assignRanks_map_rank (p : Option MonthlyReport) (m : Metric) :
    ∀ (i : Nat) (l : List CountryReport),
      (assignRanks p m i l).map (fun rec => rec.rank) = List.range' (i + 1) l.length
  | _, [] => rfl
  | i, r :: rest => by
    show (mkRanking p m i r :: assignRanks p m (i + 1) rest).map (fun rec => rec.rank) =
      List.range' (i + 1) (rest.length + 1)
    rw [List.map_cons, mkRanking_rank, assignRanks_map_rank p m (i + 1) rest]
    rfl

theorem assignRanks_filter_score (p : Option MonthlyReport) (m : Metric) (v : Int) :
    ∀ (i : Nat) (l : List CountryReport),
      ((assignRanks p m i l).filter (fun rec => rec.score == v)).map
          (fun rec => (rec.country, rec.tld)) =
        (l.filter (fun r => r.metrics.get m == v)).map (fun r => (r.country, r.tld))
  | _, [] => rfl
  | i, r :: rest => by
    show ((mkRanking p m i r :: assignRanks p m (i + 1) rest).filter
        (fun rec => rec.score == v)).map (fun rec => (rec.country, rec.tld)) = _
    rw [List.filter_cons, List.filter_cons]
    by_cases h : r.metrics.get m = v
    · simp only [mkRanking_score, h, beq_self_eq_true, if_pos, List.map_cons,
        mkRanking_country, mkRanking_tld,
        assignRanks_filter_score p m v (i + 1) rest]
    · have hb : ((mkRanking p m i r).score == v) = false := by
        simp [mkRanking_score, h]
      have hb' : ((r.metrics.get m : Int) == v) = false := by simp [h]
      rw [hb, hb']
      simp only [Bool.false_eq_true, if_neg, ite_false,
        assignRanks_filter_score p m v (i + 1) rest]

theorem assignRanks_prev (prev : MonthlyReport) (m : Metric) :
    ∀ (i : Nat) (l : List CountryReport) (rec : CountryRanking),
      rec ∈ assignRanks (some prev) m i l →
      ((∃ p ∈ prev.reports, p.tld = rec.tld) →
        rec.previousRank = some (prevRankOf prev m rec.tld) ∧
        rec.change = some ((prevRankOf prev m rec.tld : Int) - (rec.rank : Int))) ∧
      ((∀ p ∈ prev.reports, p.tld ≠ rec.tld) →
        rec.previousRank = none ∧ rec.change = none)
  | i, [], rec, hmem => absurd hmem (by simp [assignRanks])
  | i, r :: rest, rec, hmem => by
    have hmem' : rec = mkRanking (some prev) m i r ∨
        rec ∈ assignRanks (some prev) m (i + 1) rest := List.mem_cons.mp hmem
    rcases hmem' with rfl | htail
    · constructor
      · intro hex
        have hf : ∃ w, prev.reports.find? (fun x => x.tld == r.tld) = some w := by
          cases hfind : prev.reports.find? (fun x => x.tld == r.tld) with
          | none =>
            rw [List.find?_eq_none] at hfind
            obtain ⟨q, hq, he⟩ := hex
            rw [mkRanking_tld] at he
            exact absurd (by simp [he]) (hfind q hq)
          | some w => exact ⟨w, rfl⟩
        obtain ⟨w, hw⟩ := hf
        have hres := mkRanking_prev_found prev m i r w hw
        rw [mkRanking_tld, mkRanking_rank]
        exact hres
      · intro hall
        have hf : prev.reports.find? (fun x => x.tld == r.tld) = none := by
          rw [List.find?_eq_none]
          intro x hx
          have := hall x hx
          rw [mkRanking_tld] at this
          simp [this]
        exact mkRanking_prev_absent prev m i r hf
    · exact assignRanks_prev prev m (i + 1) rest rec htail

/-! ## Claims -/

/-- C1 (code evaluated at the failing input): for summaries where site "x"
is present in 2024-01 and 2024-03 but absent in 2024-02,
`getCountryHistoricalData` returns two points — but the second point's
month is "2024-02" (the i-th month of the sorted summary list) instead of
"2024-03" (the month the retained report came from): the filtered-list
index is used to index the unfiltered sorted summary list, so months are
misaligned whenever a site is absent from some month. -/
theorem getCountryHistoricalData_month_misaligned :
    histEx.map (fun mr => (mr.month, mr.reports.map (fun r => r.tld))) =
      [("2024-01", ["x"]), ("2024-02", []), ("2024-03", ["x"])] ∧
    (getCountryHistoricalData histEx "x").map
        (fun d => d.performance.map (fun pt => (pt.month, pt.value))) =
      some [("2024-01", 10), ("2024-02", 30)] := by
  constructor <;> rfl

/-- C2 (counterexample): the merge of `saveReport` is keyed by the site
name (`country`), not by the site identifier (`tld`): a batch entry whose
identifier "x" is already present in the prior summary under a different
name is appended, not merged — the summary grows to two entries with the
same identifier. -/
theorem saveReport_duplicates_same_tld :
    priorSameTld.map (fun r => r.tld) = ["x"] ∧
    batchSameTld.map (fun b => b.tld) = ["x"] ∧
    (saveReportSummary priorSameTld batchSameTld).map (fun r => r.tld) =
      ["x", "x"] ∧
    (saveReportSummary priorSameTld batchSameTld).length = 2 ∧
    priorSameTld.length = 1 := by
  refine ⟨rfl, rfl, ?_, ?_, rfl⟩ <;> rfl

/-- C2 (amended): merging (`saveReport`) is keyed by the site *name*: with
the prior summary's names distinct, the merged summary is sorted ascending
by name, its names stay distinct (an entry with an already-present name
replaces, producing no duplicate name), every batch entry's name occurs in
the result, when every batch name was already present the summary length
is unchanged, the result's entry under each batch name is exactly the
summary projection of the *last* batch report with that name (so an
already-present entry is overwritten with the batch entry's content), and
an entry whose name no batch report carries is kept unchanged. -/
theorem saveReport_merge_by_name (prior : List CountryReport)
    (batch : List NewReport) (h : (prior.map (fun r => r.country)).Nodup) :
    List.Sorted byCountryAsc (saveReportSummary prior batch) ∧
    ((saveReportSummary prior batch).map (fun r => r.country)).Nodup ∧
    (∀ b ∈ batch,
      b.country ∈ (saveReportSummary prior batch).map (fun r => r.country)) ∧
    ((∀ b ∈ batch, b.country ∈ prior.map (fun r => r.country)) →
      (saveReportSummary prior batch).length = prior.length) ∧
    (∀ b ∈ batch,
      findByKey (fun r : CountryReport => r.country) b.country
          (saveReportSummary prior batch) =
        (batch.reverse.find? (fun x => x.country == b.country)).map summaryOf) ∧
    (∀ n : String, (∀ b ∈ batch, b.country ≠ n) →
      findByKey (fun r : CountryReport => r.country) n
          (saveReportSummary prior batch) =
        findByKey (fun r : CountryReport => r.country) n prior) := by
  have hperm : List.Perm
      ((saveReportSummary prior batch).map (fun r : CountryReport => r.country))
      ((mergeReports prior batch).map (fun r : CountryReport => r.country)) :=
    (List.perm_insertionSort byCountryAsc (mergeReports prior batch)).map _
  have hkey : ∀ a b : CountryReport, a.country = b.country → byCountryAsc a b :=
    fun a b hab => strLe_of_eq hab
  have hstab : ∀ n : String,
      findByKey (fun r : CountryReport => r.country) n
          (saveReportSummary prior batch) =
        findByKey (fun r : CountryReport => r.country) n
          (mergeReports prior batch) := by
    intro n
    show findByKey (fun r : CountryReport => r.country) n
      (List.insertionSort byCountryAsc (mergeReports prior batch)) = _
    exact findByKey_insertionSort byCountryAsc (fun r => r.country) hkey n _
  refine ⟨List.sorted_insertionSort byCountryAsc _, ?_, ?_, ?_, ?_, ?_⟩
  · exact hperm.nodup_iff.mpr
      (nodup_map_key_upsertAll (fun r => r.country) summaryOf batch prior h)
  · intro b hb
    have hsome : (findByKey (fun r : CountryReport => r.country) b.country
        (mergeReports prior batch)).isSome :=
      findByKey_upsertAll_self (fun r => r.country) summaryOf batch prior b hb
    exact hperm.mem_iff.mpr
      ((findByKey_isSome_iff (fun r : CountryReport => r.country) b.country
        (mergeReports prior batch)).mp hsome)
  · intro hall
    have hlen : (upsertAll (fun r : CountryReport => r.country) summaryOf
        prior batch).length = prior.length :=
      length_upsertAll_present (fun r : CountryReport => r.country) summaryOf
        batch prior
        (fun b hb =>
          (findByKey_isSome_iff (fun r : CountryReport => r.country) b.country
            prior).mpr (hall b hb))
    calc (saveReportSummary prior batch).length
        = (mergeReports prior batch).length :=
          List.length_insertionSort byCountryAsc _
      _ = prior.length := hlen
  · intro b hb
    rw [hstab]
    exact findByKey_upsertAll_mem (fun r : CountryReport => r.country)
      summaryOf batch prior b.country ⟨b, hb, rfl⟩
  · intro n hn
    rw [hstab]
    exact findByKey_upsertAll_ne (fun r : CountryReport => r.country)
      summaryOf batch prior n (fun b hb => hn b hb)

/-- C2 (witness): the amended merge theorem evaluated on the concrete
prior summary and batch with a shared identifier but distinct names. -/
theorem saveReport_merge_by_name_witness :
    List.Sorted byCountryAsc (saveReportSummary priorSameTld batchSameTld) ∧
    ((saveReportSummary priorSameTld batchSameTld).map
      (fun r => r.country)).Nodup ∧
    (∀ b ∈ batchSameTld, b.country ∈
      (saveReportSummary priorSameTld batchSameTld).map (fun r => r.country)) ∧
    ((∀ b ∈ batchSameTld,
        b.country ∈ priorSameTld.map (fun r => r.country)) →
      (saveReportSummary priorSameTld batchSameTld).length =
        priorSameTld.length) ∧
    (∀ b ∈ batchSameTld,
      findByKey (fun r : CountryReport => r.country) b.country
          (saveReportSummary priorSameTld batchSameTld) =
        (batchSameTld.reverse.find? (fun x => x.country == b.country)).map
          summaryOf) ∧
    (∀ n : String, (∀ b ∈ batchSameTld, b.country ≠ n) →
      findByKey (fun r : CountryReport => r.country) n
          (saveReportSummary priorSameTld batchSameTld) =
        findByKey (fun r : CountryReport => r.country) n priorSameTld) :=
  saveReport_merge_by_name priorSameTld batchSameTld (by decide)

/-- C3: merging the same batch a second time against the summary produced
by the first merge yields a document with identical month and reports
content; the generation timestamp is the one supplied by the latest
write. -/
theorem saveReport_idempotent (month generatedAt : String)
    (prior : List CountryReport) (batch : List NewReport) :
    saveReportDoc month generatedAt (saveReportSummary prior batch) batch =
      { month := month, generatedAt := generatedAt
        reports := saveReportSummary prior batch } := by
  have hkey : ∀ a b : CountryReport, a.country = b.country → byCountryAsc a b :=
    fun a b hab => strLe_of_eq hab
  have hfind : ∀ b ∈ batch,
      findByKey (fun r : CountryReport => r.country) (summaryOf b).country
          (saveReportSummary prior batch) =
        (batch.reverse.find?
          (fun x => (summaryOf x).country == (summaryOf b).country)).map
          summaryOf := by
    intro b hb
    have h1 : saveReportSummary prior batch =
        List.insertionSort byCountryAsc (mergeReports prior batch) := rfl
    rw [h1, findByKey_insertionSort byCountryAsc (fun r => r.country) hkey]
    exact findByKey_upsertAll_mem (fun r => r.country) summaryOf batch prior _
      ⟨b, hb, rfl⟩
  have h2 : mergeReports (saveReportSummary prior batch) batch =
      saveReportSummary prior batch :=
    upsertAll_no_change (fun r : CountryReport => r.country) summaryOf batch
      (saveReportSummary prior batch) hfind
  have h3 : List.insertionSort byCountryAsc (saveReportSummary prior batch) =
      saveReportSummary prior batch :=
    (List.sorted_insertionSort byCountryAsc
      (mergeReports prior batch)).insertionSort_eq
  have h4 : saveReportSummary (saveReportSummary prior batch) batch =
      saveReportSummary prior batch := by
    show List.insertionSort byCountryAsc
      (mergeReports (saveReportSummary prior batch) batch) =
      saveReportSummary prior batch
    rw [h2]
    exact h3
  show MonthlyReport.mk month generatedAt
      (saveReportSummary (saveReportSummary prior batch) batch) = _
  rw [h4]

/-- C4: `calculateRankings` returns one record per current report; the
ranks are exactly 1..N in order (so the rank set is {1,...,N} with no
repeats); a record with rank 1 has a score at least every report's
selected-metric score; ties keep stable input order (the records at any
fixed score value list the sites in input order); an empty current summary
yields an empty ranking list. -/
theorem calculateRankings_ranks (cur : MonthlyReport)
    (prevOpt : Option MonthlyReport) (metric : Metric) :
    ((calculateRankings cur prevOpt metric).rankings.length =
      cur.reports.length) ∧
    ((calculateRankings cur prevOpt metric).rankings.map (fun rec => rec.rank) =
      List.range' 1 cur.reports.length) ∧
    (∀ rec ∈ (calculateRankings cur prevOpt metric).rankings, rec.rank = 1 →
      ∀ r ∈ cur.reports, r.metrics.get metric ≤ rec.score) ∧
    (∀ v : Int,
      (((calculateRankings cur prevOpt metric).rankings.filter
          (fun rec => rec.score == v)).map (fun rec => (rec.country, rec.tld))) =
        ((cur.reports.filter (fun r => r.metrics.get metric == v)).map
          (fun r => (r.country, r.tld)))) ∧
    (cur.reports = [] → (calculateRankings cur prevOpt metric).rankings = []) := by
  have hranks : (calculateRankings cur prevOpt metric).rankings =
      assignRanks prevOpt metric 0
        (List.insertionSort (byMetricDesc metric) cur.reports) := rfl
  refine ⟨?_, ?_, ?_, ?_, ?_⟩
  · rw [hranks, assignRanks_length, List.length_insertionSort]
  · rw [hranks, assignRanks_map_rank, List.length_insertionSort]
  · intro rec hrec h1 r hr
    rw [hranks] at hrec
    have hsorted := List.sorted_insertionSort (byMetricDesc metric) cur.reports
    have hmem : r ∈ List.insertionSort (byMetricDesc metric) cur.reports :=
      (List.mem_insertionSort (byMetricDesc metric)).mpr hr
    cases hs : List.insertionSort (byMetricDesc metric) cur.reports with
    | nil => rw [hs] at hmem; exact absurd hmem (by simp)
    | cons hd tl =>
      rw [hs] at hrec hmem hsorted
      rcases List.mem_cons.mp hrec with rfl | htail
      · rw [mkRanking_score]
        rcases List.mem_cons.mp hmem with rfl | hrt
        · exact le_refl _
        · exact List.rel_of_sorted_cons hsorted r hrt
      · have hrk : rec.rank ∈ (assignRanks prevOpt metric 1 tl).map
            (fun x => x.rank) := List.mem_map.mpr ⟨rec, htail, rfl⟩
        rw [assignRanks_map_rank] at hrk
        have h2 := (List.mem_range'_1.mp hrk).1
        omega
  · intro v
    rw [hranks, assignRanks_filter_score,
      filter_insertionSort_key (byMetricDesc metric)
        (fun r => r.metrics.get metric)
        (fun a b hab => le_of_eq hab.symm) v cur.reports]
  · intro h
    rw [hranks, h]
    rfl

/-- C5: in the ranking list for a current summary against a previous one,
a site present in the previous summary gets
`previousRank` = its 1-based position in the previous summary
independently sorted descending by the same metric, and
`change = previousRank - rank` (positive means improvement); a site absent
from the previous summary gets `previousRank = none` and `change = none`,
not zero. -/
theorem calculateRankings_change (cur prev : MonthlyReport) (metric : Metric) :
    ∀ rec ∈ (calculateRankings cur (some prev) metric).rankings,
      ((∃ p ∈ prev.reports, p.tld = rec.tld) →
        rec.previousRank = some (prevRankOf prev metric rec.tld) ∧
        rec.change =
          some ((prevRankOf prev metric rec.tld : Int) - (rec.rank : Int))) ∧
      ((∀ p ∈ prev.reports, p.tld ≠ rec.tld) →
        rec.previousRank = none ∧ rec.change = none) :=
  fun rec hrec => assignRanks_prev prev metric 0 _ rec hrec

/-- C5 (witness): on the example months, site "e" moves from previous rank
5 to current rank 2 and its change is +3. -/
theorem calculateRankings_change_witness :
    recE ∈ (calculateRankings curEx (some prevEx) Metric.performance).rankings ∧
    recE.previousRank = some (prevRankOf prevEx Metric.performance recE.tld) ∧
    recE.change =
      some ((prevRankOf prevEx Metric.performance recE.tld : Int) -
        (recE.rank : Int)) ∧
    prevRankOf prevEx Metric.performance recE.tld = 5 ∧
    recE.rank = 2 ∧ recE.change = some 3 := by
  have hmem : recE ∈
      (calculateRankings curEx (some prevEx) Metric.performance).rankings := by
    decide
  have h := (calculateRankings_change curEx prevEx Metric.performance recE
    hmem).1 ⟨mkSite "E" "e" 50, by decide, rfl⟩
  exact ⟨hmem, h.1, h.2, by decide, rfl, rfl⟩

/-- C6: for an audit referenced by a category (with its raw score, when
present, a fraction in [0,1] as the data model fixes), an issue for it is
in the category's list iff the raw score treated-with-null-as-1 is
strictly below 1, or the display mode is "informative" and the audit
carries structured detail content; and its severity is "high" exactly when
the raw score is 0, "medium" exactly when the treated score lies in
(0, 1/2), and "low" otherwise (a null raw score included). -/
theorem extractAudits_inclusion_severity (audits : String → Option RawAudit)
    (refs : List AuditRef) (ref : AuditRef) (a : RawAudit)
    (href : ref ∈ refs) (ha : audits ref.id = some a)
    (hrange : ∀ q : ℚ, a.score = some q → 0 ≤ q ∧ q ≤ 1) :
    ((∃ issue, extractOne audits ref = some issue ∧
        issue ∈ extractAuditsForCategory audits refs) ↔
      (a.score.getD 1 < 1 ∨
        (a.scoreDisplayMode = "informative" ∧ a.details = true))) ∧
    (∀ issue, extractOne audits ref = some issue →
      (issue.severity = "high" ↔ a.score = some 0) ∧
      (issue.severity = "medium" ↔
        ∃ q : ℚ, a.score = some q ∧ 0 < q ∧ q < 1/2) ∧
      (issue.severity = "low" ↔
        (a.score = none ∨ ∃ q : ℚ, a.score = some q ∧ 1/2 ≤ q))) := by
  have hext : extractOne audits ref =
      if a.score.getD 1 < 1 ∨
          (a.scoreDisplayMode = "informative" ∧ a.details = true) then
        some
          { id := ref.id
            title := a.title
            description := a.description
            score := a.score
            scoreDisplayMode := a.scoreDisplayMode
            displayValue := orNullStr a.displayValue
            severity :=
              if a.score.getD 1 = 0 then "high"
              else if a.score.getD 1 < 1/2 then "medium" else "low"
            weight := ref.weight.getD 0
            numericValue := orNullNum a.numericValue
            numericUnit := a.numericUnit }
      else none := by
    rw [extractOne, ha]
    rfl
  constructor
  · constructor
    · rintro ⟨issue, hiss, -⟩
      by_contra hcond
      rw [hext, if_neg hcond] at hiss
      exact Option.noConfusion hiss
    · intro hcond
      refine ⟨_, by rw [hext, if_pos hcond], ?_⟩
      show _ ∈ List.insertionSort bySeverity
        (refs.filterMap (extractOne audits))
      refine (List.mem_insertionSort bySeverity).mpr ?_
      exact List.mem_filterMap.mpr ⟨ref, href, by rw [hext, if_pos hcond]⟩
  · intro issue hiss
    rw [hext] at hiss
    split at hiss
    case isFalse => exact Option.noConfusion hiss
    case isTrue hcond =>
      have hrec := (Option.some_inj.mp hiss).symm
      subst hrec
      cases hsc : a.score with
      | none =>
        refine ⟨?_, ?_, ?_⟩ <;> norm_num [Option.getD_none] <;> decide
      | some q =>
        obtain ⟨hq0, hq1⟩ := hrange q hsc
        by_cases h0 : q = 0
        · subst h0
          refine ⟨?_, ?_, ?_⟩ <;> norm_num [Option.getD_some] <;> decide
        · by_cases hlt : q < 1/2
          · have hq0' : 0 < q := lt_of_le_of_ne hq0 (Ne.symm h0)
            have hnle : ¬(1/2 ≤ q) := not_le.mpr hlt
            refine ⟨?_, ?_, ?_⟩ <;>
              norm_num [Option.getD_some, h0, hlt, hq0', hnle] <;> simp
          · have hge : (1/2 : ℚ) ≤ q := not_lt.mp hlt
            refine ⟨?_, ?_, ?_⟩ <;>
              norm_num [Option.getD_some, h0, hlt, hge] <;> simp

/-- C6 (witness): the inclusion-and-severity characterisation evaluated at
a concrete lookup holding one audit with raw score 0. -/
theorem extractAudits_inclusion_severity_witness :
    ((∃ issue, extractOne lookupW refW = some issue ∧
        issue ∈ extractAuditsForCategory lookupW [refW]) ↔
      (auditW.score.getD 1 < 1 ∨
        (auditW.scoreDisplayMode = "informative" ∧ auditW.details = true))) ∧
    (∀ issue, extractOne lookupW refW = some issue →
      (issue.severity = "high" ↔ auditW.score = some 0) ∧
      (issue.severity = "medium" ↔
        ∃ q : ℚ, auditW.score = some q ∧ 0 < q ∧ q < 1/2) ∧
      (issue.severity = "low" ↔
        (auditW.score = none ∨ ∃ q : ℚ, auditW.score = some q ∧ 1/2 ≤ q))) :=
  extractAudits_inclusion_severity lookupW [refW] refW auditW
    (List.mem_singleton.mpr rfl) rfl
    (fun q hq => by
      have hq' : (0 : ℚ) = q := Option.some.inj hq
      rw [← hq']
      norm_num)

/-- C7 (counterexample): the `cumulative-layout-shift` entry is present
with numeric value exactly 0, yet the extracted timing field is `null`:
`audits[key]?.numericValue || null` coerces the falsy value 0 to `null`,
so a present raw numeric value of 0 is not preserved. -/
theorem timing_zero_coerced_to_null :
    (timingAudits "cumulative-layout-shift").map (fun a => a.numericValue) =
      some (some 0) ∧
    (extractTiming timingAudits).cumulativeLayoutShift = none := by
  constructor <;> rfl

/-- C7 (amended): each of the five timing fields equals
`timingField audits key` for its fixed key, and that value equals the raw
entry's numeric value when the entry is present with a nonzero numeric
value; it is null exactly when the named entry is absent, its numeric
value is absent, or its numeric value equals 0 (so a present value of 0 is
replaced by null). -/
theorem extractTiming_fields (audits : String → Option RawAudit) :
    (extractTiming audits).firstContentfulPaint =
      timingField audits "first-contentful-paint" ∧
    (extractTiming audits).largestContentfulPaint =
      timingField audits "largest-contentful-paint" ∧
    (extractTiming audits).totalBlockingTime =
      timingField audits "total-blocking-time" ∧
    (extractTiming audits).cumulativeLayoutShift =
      timingField audits "cumulative-layout-shift" ∧
    (extractTiming audits).speedIndex = timingField audits "speed-index" ∧
    (∀ (k : String) (v : ℚ), timingField audits k = some v ↔
      ∃ a, audits k = some a ∧ a.numericValue = some v ∧ v ≠ 0) ∧
    (∀ k : String, timingField audits k = none ↔
      (audits k = none ∨ ∃ a, audits k = some a ∧
        (a.numericValue = none ∨ a.numericValue = some 0))) := by
  refine ⟨rfl, rfl, rfl, rfl, rfl, ?_, ?_⟩
  · intro k v
    cases hk : audits k with
    | none => simp [timingField, hk]
    | some a =>
      cases hv : a.numericValue with
      | none => simp [timingField, orNullNum, hk, hv]
      | some q =>
        by_cases h0 : q = 0 <;>
          simp [timingField, orNullNum, hk, hv, h0] <;> aesop
  · intro k
    cases hk : audits k with
    | none => simp [timingField, hk]
    | some a =>
      cases hv : a.numericValue with
      | none => simp [timingField, orNullNum, hk, hv]
      | some q =>
        by_cases h0 : q = 0 <;>
          simp [timingField, orNullNum, hk, hv, h0]

/-- C8: starting from the empty manifest, after any sequence of upserts
the manifest has at most one entry per month (month keys are distinct) and
is sorted descending by month; upserting the same entry twice yields the
same manifest as upserting it once; and an upsert for an existing month
replaces that entry in place: the length is unchanged and the month now
maps to the new entry. -/
theorem updateManifest_invariants :
    (∀ es : List ManifestEntry,
      ((updateManifestAll [] es).map (fun r => r.month)).Nodup ∧
        List.Sorted byMonthDesc (updateManifestAll [] es)) ∧
    (∀ (m : List ManifestEntry) (e : ManifestEntry),
      updateManifest (updateManifest m e) e = updateManifest m e) ∧
    (∀ (m : List ManifestEntry) (e : ManifestEntry),
      (findByKey (fun r => r.month) e.month m).isSome →
        (updateManifest m e).length = m.length ∧
          findByKey (fun r => r.month) e.month (updateManifest m e) = some e) := by
  have hkeyM : ∀ a b : ManifestEntry, a.month = b.month → byMonthDesc a b :=
    fun a b hab => strLe_of_eq hab.symm
  have hnodup : ∀ (m : List ManifestEntry) (e : ManifestEntry),
      (m.map (fun r : ManifestEntry => r.month)).Nodup →
      ((updateManifest m e).map (fun r : ManifestEntry => r.month)).Nodup := by
    intro m e hm
    have hperm : List.Perm
        ((updateManifest m e).map (fun r : ManifestEntry => r.month))
        ((upsertBy (fun r : ManifestEntry => r.month) e m).map
          (fun r : ManifestEntry => r.month)) :=
      (List.perm_insertionSort byMonthDesc
        (upsertBy (fun r : ManifestEntry => r.month) e m)).map _
    exact hperm.nodup_iff.mpr
      (nodup_map_key_upsertBy (fun r : ManifestEntry => r.month) e m hm)
  have hfindSort : ∀ (m : List ManifestEntry) (e : ManifestEntry),
      findByKey (fun r : ManifestEntry => r.month) e.month (updateManifest m e) =
        some e := by
    intro m e
    show findByKey (fun r : ManifestEntry => r.month) e.month
      (List.insertionSort byMonthDesc
        (upsertBy (fun r : ManifestEntry => r.month) e m)) = some e
    rw [findByKey_insertionSort byMonthDesc (fun r => r.month) hkeyM]
    exact findByKey_upsertBy_self (fun r : ManifestEntry => r.month) e m
  refine ⟨?_, ?_, ?_⟩
  · have haux : ∀ (es : List ManifestEntry) (m : List ManifestEntry),
        (m.map (fun r : ManifestEntry => r.month)).Nodup →
        List.Sorted byMonthDesc m →
        ((updateManifestAll m es).map (fun r : ManifestEntry => r.month)).Nodup ∧
          List.Sorted byMonthDesc (updateManifestAll m es) := by
      intro es
      induction es with
      | nil => exact fun m h1 h2 => ⟨h1, h2⟩
      | cons e es ih =>
        intro m h1 h2
        exact ih (updateManifest m e) (hnodup m e h1)
          (List.sorted_insertionSort byMonthDesc _)
    exact fun es => haux es [] (by simp) (by simp)
  · intro m e
    have he : upsertBy (fun r : ManifestEntry => r.month) e (updateManifest m e) =
        updateManifest m e :=
      upsertBy_eq_self (fun r : ManifestEntry => r.month) e _ (hfindSort m e)
    show List.insertionSort byMonthDesc
      (upsertBy (fun r : ManifestEntry => r.month) e (updateManifest m e)) =
      updateManifest m e
    rw [he]
    exact (List.sorted_insertionSort byMonthDesc _).insertionSort_eq
  · intro m e hsome
    refine ⟨?_, hfindSort m e⟩
    show (List.insertionSort byMonthDesc
      (upsertBy (fun r : ManifestEntry => r.month) e m)).length = m.length
    rw [List.length_insertionSort,
      length_upsertBy (fun r : ManifestEntry => r.month) e m, if_pos hsome]

/-- C9 (counterexample): a malformed manifest document makes the manifest
upsert raise (`JSON.parse` is not guarded in `updateManifest`), so the
operation does abort on a malformed document instead of recovering. -/
theorem malformed_manifest_raises :
    updateManifestFromStore StoredDoc.malformed entryC9 = Except.error () := rfl

/-- C9 (amended): the merge recovers a missing or malformed prior summary
as the empty summary (with a warning), but only a *missing* manifest is
recovered as the empty manifest — a malformed manifest raises and aborts
the manifest update. -/
theorem malformed_document_recovery (batch : List NewReport)
    (e : ManifestEntry) (m : List ManifestEntry) (rs : List CountryReport) :
    saveReportFromStore StoredDoc.malformed batch = saveReportSummary [] batch ∧
    saveReportFromStore StoredDoc.absent batch = saveReportSummary [] batch ∧
    saveReportFromStore (StoredDoc.wellFormed rs) batch =
      saveReportSummary rs batch ∧
    updateManifestFromStore StoredDoc.absent e =
      Except.ok (updateManifest [] e) ∧
    updateManifestFromStore (StoredDoc.wellFormed m) e =
      Except.ok (updateManifest m e) ∧
    updateManifestFromStore StoredDoc.malformed e = Except.error () :=
  ⟨rfl, rfl, rfl, rfl, rfl, rfl⟩

/-- An extracted issue always comes from a present lookup entry. -/
theorem extractOne_some_isSome (audits : String → Option RawAudit)
    (ref : AuditRef) (issue : AuditIssue)
    (h : extractOne audits ref = some issue) : (audits issue.id).isSome := by
  cases haud : audits ref.id with
  | none =>
    have hn : extractOne audits ref = none := by rw [extractOne, haud]
    rw [hn] at h
    exact Option.noConfusion h
  | some a =>
    have he : extractOne audits ref =
        if a.score.getD 1 < 1 ∨
            (a.scoreDisplayMode = "informative" ∧ a.details = true) then
          some (buildIssue ref a)
        else none := by
      rw [extractOne, haud]
    rw [he] at h
    split at h
    · have hid : issue.id = ref.id := by
        rw [← Option.some_inj.mp h]
        rfl
      rw [hid, haud]
      rfl
    · exact Option.noConfusion h

/-- C10 (implicit): an audit reference whose id has no entry in the lookup
contributes nothing to the category's list — dropping it leaves the
extracted list unchanged — and every extracted issue's id does have a
lookup entry, so no placeholder is ever produced and the extraction never
fails. -/
theorem extractAudits_skips_unknown (audits : String → Option RawAudit)
    (refs₁ refs₂ : List AuditRef) (ref : AuditRef) (h : audits ref.id = none) :
    extractAuditsForCategory audits (refs₁ ++ ref :: refs₂) =
      extractAuditsForCategory audits (refs₁ ++ refs₂) ∧
    ∀ issue ∈ extractAuditsForCategory audits (refs₁ ++ ref :: refs₂),
      (audits issue.id).isSome := by
  have hnone : extractOne audits ref = none := by rw [extractOne, h]
  constructor
  · show List.insertionSort bySeverity
      ((refs₁ ++ ref :: refs₂).filterMap (extractOne audits)) = _
    rw [List.filterMap_append, List.filterMap_cons, hnone,
      ← List.filterMap_append]
    rfl
  · intro issue hiss
    have hmem : issue ∈ (refs₁ ++ ref :: refs₂).filterMap (extractOne audits) :=
      (List.mem_insertionSort bySeverity).mp hiss
    obtain ⟨x, _, hex⟩ := List.mem_filterMap.mp hmem
    exact extractOne_some_isSome audits x issue hex

/-- C10 (witness): the skip property evaluated at a concrete lookup and an
unknown audit reference. -/
theorem extractAudits_skips_unknown_witness :
    extractAuditsForCategory lookupW ([refW] ++ refU :: []) =
      extractAuditsForCategory lookupW ([refW] ++ []) ∧
    ∀ issue ∈ extractAuditsForCategory lookupW ([refW] ++ refU :: []),
      (lookupW issue.id).isSome :=
  extractAudits_skips_unknown lookupW [refW] [] refU rfl

end GovWeb
